import Mathlib

/-!
Shallow embedding of the melody-enhancement core of the pi-loom repository
(`src/lib/ai-composer.ts`): the Pattern Detector (`detectPatterns`), the
Harmony Generator (`generateHarmonies`), the Melody Enhancer (`enhanceMelody`)
and the public entry point (`enhanceComposition`).

Conventions of the embedding:
* JS numbers that carry scores, probabilities and the complexity/variation
  scalars are modelled as `ℚ`; array indices and counts as `ℕ` (with `ℤ`
  where JS arithmetic can go negative, e.g. `indexOf` results and
  `Math.floor` of a product).
* `Math.random()` is modelled as an ambient draw stream `g : ℕ → ℚ` together
  with a counter threaded through the computation; every call site of
  `Math.random()` in the source consumes exactly one draw.
* Note tokens are Lean `String`s; `s.slice(0,-1)` / `s.slice(-1)` are
  modelled on the character list of the string.
-/

namespace AIComposer

/-- The `Pattern` interface of ai-composer.ts:
start index, span length, repeat count and a significance score. -/
structure Pattern where
  start : ℕ
  length : ℕ
  repeats : ℕ
  significance : ℚ
  deriving DecidableEq, Repr

/-- JS `s.slice(0, -1)`: every character but the last (empty for ""). -/
def sliceDropLast (s : String) : String := String.mk s.data.dropLast

/-- JS `s.slice(-1)`: the last character as a one-character string (empty for ""). -/
def sliceLast (s : String) : String :=
  match s.data.getLast? with
  | some c => String.mk [c]
  | none => ""

/-- JS `parseInt(s)` on the one-character strings produced by `sliceLast`:
a single ASCII digit parses to its value, anything else gives NaN (`none`). -/
def parseDigit (s : String) : Option ℕ :=
  match s.data with
  | [c] => if c.isDigit then some (c.toNat - 48) else none
  | _ => none

/-- JS template interpolation of `parseInt(s)` for the octave suffix:
a single digit renders back as itself, a failed parse renders as "NaN". -/
def octaveRender (s : String) : String :=
  match s.data with
  | [c] => if c.isDigit then String.mk [c] else "NaN"
  | _ => "NaN"

/-- The fixed 12-entry chromatic name table of generateHarmonies:
C, C#, D, D#, E, F, F#, G, G#, A, A#, B (written in two halves). -/
def chromatic : List String :=
  ["C", "C#", "D", "D#", "E", "F"] ++ ["F#", "G", "G#", "A", "A#", "B"]

/-- JS `chromatic.indexOf(name)`: the index of the name in the table, -1 when absent. -/
def noteIndexOf (name : String) : ℤ :=
  match chromatic.findIdx? (· == name) with
  | some i => (i : ℤ)
  | none => -1

/-- One harmony voice of generateHarmonies: shift the chromatic index of the
pitch-class prefix by `shift` modulo 12 and re-attach the rendered octave.
The JS `%` agrees with `Int.emod` here because the dividend
`noteIndexOf name + shift` is at least `-1 + 4 = 3 ≥ 0` for the two shifts
used (4 and 7). -/
def harmonyNote (shift : ℤ) (note : String) : String :=
  let noteName := sliceDropLast note
  let octave := octaveRender (sliceLast note)
  let idx := (noteIndexOf noteName + shift) % 12
  chromatic.getD idx.toNat "" ++ octave

/-- The third-voice map of generateHarmonies (shift +4, "perfect third"). -/
def thirdOf (note : String) : String := harmonyNote 4 note

/-- The fifth-voice map of generateHarmonies (shift +7, "perfect fifth"). -/
def fifthOf (note : String) : String := harmonyNote 7 note

/-- `generateHarmonies` from ai-composer.ts: the third-harmony line followed
by the fifth-harmony line. -/
def generateHarmonies (notes : List String) : List (List String) :=
  [notes.map thirdOf, notes.map fifthOf]

/-- JS `notes.slice(start, start + len)` for a nonnegative start. -/
def sliceRange (notes : List String) (start len : ℕ) : List String :=
  (notes.drop start).take len

/-- JS `array.join(",")`. -/
def joinComma (l : List String) : String := String.intercalate "," l

/-- Record occurrence index `i` under `key` in the insertion-ordered pattern
map (JS `Map` keeps insertion order; a new start index is pushed at the end
of the key's position list). -/
def insertPos : List (String × List ℕ) → String → ℕ → List (String × List ℕ)
  | [], key, i => [(key, [i])]
  | (k, ps) :: rest, key, i =>
    if k = key then (k, ps ++ [i]) :: rest
    else (k, ps) :: insertPos rest key i

/-- The `patternMap` of detectPatterns for span length `L`: slide a window of
`L` tokens over the sequence (start indices `0 .. notes.length - L`) and group
the start indices by the comma-joined window contents. -/
def buildMap (notes : List String) (L : ℕ) : List (String × List ℕ) :=
  (List.range (notes.length + 1 - L)).foldl
    (fun m i => insertPos m (joinComma (sliceRange notes i L)) i) []

/-- The exact-repeat candidates of detectPatterns for one span length: every
window contents occurring at two or more start positions becomes a Pattern
with the first start, the span length, the occurrence count and significance
`min 1 (occurrences * L / 20)`. -/
def exactPatternsOfLen (notes : List String) (L : ℕ) : List Pattern :=
  (buildMap notes L).filterMap fun e =>
    if 2 ≤ e.2.length then
      some ⟨e.2.headD 0, L, e.2.length, min 1 (((e.2.length * L : ℕ) : ℚ) / 20)⟩
    else none

/-- All exact-repeat candidates, span lengths 2 to 5 in order. -/
def exactPatterns (notes : List String) : List Pattern :=
  ([2, 3, 4, 5] : List ℕ).foldl (fun acc L => acc ++ exactPatternsOfLen notes L) []

/-- The inner counting loop of the fuzzy fallback of detectPatterns: for the
3-token reference window at `i`, count the 3-token windows at
`j = i+3 .. notes.length - 3` sharing at least one token with it. -/
def fuzzyCount (notes : List String) (i : ℕ) : ℕ :=
  (List.range' (i + 3) (notes.length - 2 - (i + 3))).countP
    (fun j => (sliceRange notes i 3).any (fun note => (sliceRange notes j 3).contains note))

/-- The fuzzy fallback loop of detectPatterns from position `i`: while
`i < notes.length - 5`, a reference window with at least 2 fuzzy matches
becomes a Pattern (repeats = matches + 1, significance
`min 1 (matches * 3 / 20)`) and the loop skips ahead 3 positions (the
in-loop `i += 2` plus the loop increment); otherwise it advances by 1. -/
def fuzzyFrom (notes : List String) (i : ℕ) : List Pattern :=
  if h : i < notes.length - 5 then
    let reps := fuzzyCount notes i
    if 2 ≤ reps then
      ⟨i, 3, reps + 1, min 1 (((reps * 3 : ℕ) : ℚ) / 20)⟩ :: fuzzyFrom notes (i + 3)
    else fuzzyFrom notes (i + 1)
  else []
termination_by notes.length - i
decreasing_by
  all_goals omega

/-- The final sort of detectPatterns: JS `sort((a, b) => b.significance -
a.significance)` is a stable sort placing higher significance first. -/
def sortBySig (l : List Pattern) : List Pattern :=
  l.mergeSort (fun a b => decide (b.significance ≤ a.significance))

/-- `detectPatterns` from ai-composer.ts: return no patterns below 10 tokens;
otherwise collect exact-repeat candidates, fall back to the fuzzy pass when
there are none, sort by descending significance and keep the top 5. -/
def detectPatterns (notes : List String) : List Pattern :=
  if notes.length < 10 then []
  else
    let pats := exactPatterns notes
    let pats2 := if pats.length = 0 ∧ 10 ≤ notes.length then pats ++ fuzzyFrom notes 0 else pats
    (sortBySig pats2).take 5

/-- Remove the first '*' of a character list, if any. -/
def removeFirstStar : List Char → List Char
  | [] => []
  | c :: cs => if c = '*' then cs else c :: removeFirstStar cs

/-- JS `note.replace("*", "")`: removes only the first '*' occurrence. -/
def stripStar (s : String) : String := String.mk (removeFirstStar s.data)

/-- The ASCII digit character for `n ≤ 9` (JS template rendering of a
single-digit number). -/
def digitChar (n : ℕ) : Char := Char.ofNat (48 + n)

/-- The octave raise of the medium-significance branch: split off the last
character, parse it as the octave, raise by one clamped at 7 (a raised octave
is a single digit, so it renders as one digit character); a failed parse
renders as "NaN" (JS `Math.min(NaN, 7)` is NaN). -/
def raiseOctave (note : String) : String :=
  let noteName := sliceDropLast note
  match parseDigit (sliceLast note) with
  | some o => noteName ++ String.mk [digitChar (min (o + 1) 7)]
  | none => noteName ++ "NaN"

/-- JS `arr.splice(start, 0, ...)` index normalisation: a negative start
counts from the end clamped at 0, a nonnegative start is clamped at the
length. -/
def spliceIdx (len : ℕ) (start : ℤ) : ℕ :=
  if start < 0 then (start + len).toNat else min start.toNat len

/-- JS `arr.splice(start, 0, ...items)`: insert `items` at the normalised
position, deleting nothing. -/
def spliceInsert (l : List String) (start : ℤ) (items : List String) : List String :=
  l.take (spliceIdx l.length start) ++ items ++ l.drop (spliceIdx l.length start)

/-- One iteration of the medium-significance loop of enhanceMelody: at
`pos = start + i * length`, when in range, draw and (below `variation`)
raise the octave of the token there. The draw is consumed only when `pos`
is in range (JS short-circuit `&&`). -/
def mediumStep (variation : ℚ) (g : ℕ → ℚ) (p : Pattern) (st : List String × ℕ) (i : ℕ) :
    List String × ℕ :=
  let pos := p.start + i * p.length
  if pos < st.1.length then
    if g st.2 < variation then (st.1.set pos (raiseOctave (st.1.getD pos "")), st.2 + 1)
    else (st.1, st.2 + 1)
  else st

/-- One iteration of the low-significance loop of enhanceMelody: draw, and
below `variation * 0.3` append the '*' marker to the token at
`pos = start + i` when in range. The draw is consumed in every iteration. -/
def lowStep (variation : ℚ) (g : ℕ → ℚ) (p : Pattern) (st : List String × ℕ) (i : ℕ) :
    List String × ℕ :=
  if g st.2 < variation * (3 / 10) then
    let pos := p.start + i
    if pos < st.1.length then (st.1.set pos (st.1.getD pos "" ++ "*"), st.2 + 1)
    else (st.1, st.2 + 1)
  else (st.1, st.2 + 1)

/-- The per-pattern body of enhanceMelody: one gate draw (below
`variation * 0.8` the pattern fires); a firing high-significance pattern
(`> 0.7`) splices a copy of its span from the original `notes` at
`Math.floor(random * (notes.length - pattern.length))`; medium significance
(`> 0.4`) runs the octave-raise loop over the repeat occurrences; otherwise
the marker loop runs over the span. -/
def applyPattern (notes : List String) (variation : ℚ) (g : ℕ → ℚ)
    (st : List String × ℕ) (p : Pattern) : List String × ℕ :=
  if g st.2 < variation * (8 / 10) then
    let k := st.2 + 1
    let patternNotes := sliceRange notes p.start p.length
    if 7 / 10 < p.significance then
      let ip := Int.floor (g k * ((notes.length : ℚ) - (p.length : ℚ)))
      (spliceInsert st.1 ip patternNotes, k + 1)
    else if 4 / 10 < p.significance then
      (List.range p.repeats).foldl (mediumStep variation g p) (st.1, k)
    else
      (List.range p.length).foldl (lowStep variation g p) (st.1, k)
  else (st.1, st.2 + 1)

/-- `enhanceMelody` from ai-composer.ts: identity when `variation` is exactly
0; otherwise fold the per-pattern body over the pattern list starting from a
copy of `notes`, then strip the first '*' of every token. -/
def enhanceMelody (notes : List String) (patterns : List Pattern) (variation : ℚ)
    (g : ℕ → ℚ) : List String :=
  if variation = 0 then notes
  else ((patterns.foldl (applyPattern notes variation g) (notes, 0)).1).map stripStar

/-- The `AICompositionOptions` interface of ai-composer.ts. -/
structure AICompositionOptions where
  notes : List String
  complexity : ℚ
  harmony : Bool
  variation : ℚ

/-- The `AICompositionResult` interface of ai-composer.ts; the optional
`harmonies` field (`undefined` when harmony is off) is an `Option`. -/
structure AICompositionResult where
  enhancedNotes : List String
  patterns : List Pattern
  harmonies : Option (List (List String))

/-- The pattern truncation of enhanceComposition: for positive complexity,
`patterns.slice(0, Math.max(1, Math.floor(patterns.length * complexity)))`;
for complexity 0 (or below), no patterns. -/
def patternsToUse (patterns : List Pattern) (complexity : ℚ) : List Pattern :=
  if 0 < complexity then
    patterns.take (max 1 (Int.floor ((patterns.length : ℚ) * complexity))).toNat
  else []

/-- `enhanceComposition` from ai-composer.ts: detect patterns, generate the
harmonies when the flag is set, and for positive complexity run the enhancer
over the truncated pattern list (complexity 0 bypasses the enhancer). -/
def enhanceComposition (o : AICompositionOptions) (g : ℕ → ℚ) : AICompositionResult :=
  { enhancedNotes :=
      if 0 < o.complexity then
        enhanceMelody o.notes (patternsToUse (detectPatterns o.notes) o.complexity) o.variation g
      else o.notes
    patterns := detectPatterns o.notes
    harmonies := if o.harmony then some (generateHarmonies o.notes) else none }

end AIComposer

/-! ## Helper lemmas for the Harmony Generator -/

namespace AIComposer

/-- A well-formed note token: a chromatic pitch-class name followed by one
octave digit. -/
def WellFormedNote (n : String) : Prop :=
  ∃ k, k < 12 ∧ ∃ c : Char, c.isDigit = true ∧ n = chromatic.getD k "" ++ String.mk [c]

theorem findIdx_chromatic (k : ℕ) (hk : k < 12) :
    chromatic.findIdx? (· == chromatic.getD k "") = some k := by
  interval_cases k <;> decide

theorem sliceDropLast_concat (name : String) (c : Char) :
    sliceDropLast (name ++ String.mk [c]) = name := by
  unfold sliceDropLast
  rw [String.data_append]
  show String.mk ((name.data ++ [c]).dropLast) = name
  rw [List.dropLast_concat]

theorem sliceLast_concat (name : String) (c : Char) :
    sliceLast (name ++ String.mk [c]) = String.mk [c] := by
  unfold sliceLast
  rw [String.data_append]
  show (match (name.data ++ [c]).getLast? with
    | some c => String.mk [c]
    | none => "") = String.mk [c]
  rw [List.getLast?_concat]

theorem octaveRender_digit (c : Char) (hc : c.isDigit = true) :
    octaveRender (String.mk [c]) = String.mk [c] := by
  unfold octaveRender
  simp [hc]

theorem harmonyNote_wf (shift k : ℕ) (hk : k < 12) (c : Char) (hc : c.isDigit = true) :
    harmonyNote (shift : ℤ) (chromatic.getD k "" ++ String.mk [c]) =
      chromatic.getD ((k + shift) % 12) "" ++ String.mk [c] := by
  unfold harmonyNote
  rw [sliceDropLast_concat, sliceLast_concat, octaveRender_digit c hc]
  show chromatic.getD ((noteIndexOf (chromatic.getD k "") + (shift : ℤ)) % 12).toNat "" ++
      String.mk [c] = chromatic.getD ((k + shift) % 12) "" ++ String.mk [c]
  have hidx : noteIndexOf (chromatic.getD k "") = (k : ℤ) := by
    unfold noteIndexOf
    rw [findIdx_chromatic k hk]
  rw [hidx]
  have hcast : ((((k : ℤ) + (shift : ℤ)) % 12).toNat) = (k + shift) % 12 := by omega
  rw [hcast]

end AIComposer

/-! ## Claim theorems: C1, C3, C6, C8, C9, C10 and the C5 counterexample -/

namespace AIComposer

/-- C1, counterexample: on the 8-token spec example with complexity 0 and
harmony off, the returned patterns list is empty, so it contains no entry
with start 0, length 3, repeats 2 and significance 0.3. -/
theorem c1_patterns_counterexample :
    ¬ ∃ p ∈ (enhanceComposition
        ⟨["D4", "E4", "F#4", "D4", "E4", "F#4", "G4", "A4"], 0, false, 0⟩
        (fun _ => 0)).patterns,
      p.start = 0 ∧ p.length = 3 ∧ p.repeats = 2 ∧ p.significance = 3 / 10 := by
  decide

/-- C1, amended: for the input notes ["D4","E4","F#4","D4","E4","F#4","G4","A4"]
with complexity 0 and harmony off, enhanceComposition returns the input
unchanged and an empty patterns list (the 8-token input is below the
detector's 10-token minimum, so no pattern — in particular none with
start 0, length 3, repeats 2, significance 0.3 — is reported). -/
theorem c1_short_input_amended (v : ℚ) (g : ℕ → ℚ) :
    (enhanceComposition
        ⟨["D4", "E4", "F#4", "D4", "E4", "F#4", "G4", "A4"], 0, false, v⟩ g).enhancedNotes =
      ["D4", "E4", "F#4", "D4", "E4", "F#4", "G4", "A4"] ∧
    (enhanceComposition
        ⟨["D4", "E4", "F#4", "D4", "E4", "F#4", "G4", "A4"], 0, false, v⟩ g).patterns = [] := by
  constructor
  · simp [enhanceComposition]
  · show detectPatterns ["D4", "E4", "F#4", "D4", "E4", "F#4", "G4", "A4"] = []
    decide

/-- C3, counterexample: with no detected patterns (here: an empty input) and
complexity 1/2 > 0, enhanceComposition passes 0 patterns to the enhancer,
not max(1, floor(0 * 1/2)) = 1 as the claim states. -/
theorem c3_pattern_count_counterexample :
    (0 : ℚ) < 1 / 2 ∧
    (patternsToUse (detectPatterns ([] : List String)) (1 / 2)).length ≠
      (max 1 (Int.floor (((detectPatterns ([] : List String)).length : ℚ) * (1 / 2)))).toNat := by
  have h0 : detectPatterns ([] : List String) = [] := by decide
  rw [h0]
  constructor
  · norm_num
  · rw [patternsToUse, if_pos (by norm_num : (0 : ℚ) < 1 / 2)]
    norm_num

/-- C3, amended: for complexity strictly greater than 0, enhanceComposition
passes exactly min(n, max(1, floor(n * complexity))) top-ranked patterns to
the enhancer, where n is the length of the truncated-to-5 detected pattern
list (the slice cannot produce more patterns than were detected; when n = 0
it passes none); for complexity exactly 0 the enhancer is bypassed and
enhancedNotes equals the input notes. -/
theorem c3_pattern_count_amended (o : AICompositionOptions) (g : ℕ → ℚ) :
    (0 < o.complexity →
      (patternsToUse (detectPatterns o.notes) o.complexity).length =
        min (detectPatterns o.notes).length
          (max 1 (Int.floor (((detectPatterns o.notes).length : ℚ) * o.complexity))).toNat) ∧
    (o.complexity = 0 → (enhanceComposition o g).enhancedNotes = o.notes) := by
  constructor
  · intro h
    rw [patternsToUse, if_pos h, List.length_take, Nat.min_comm]
  · intro h
    show (if 0 < o.complexity then _ else o.notes) = o.notes
    rw [if_neg (by rw [h]; exact lt_irrefl 0)]

/-- C3 witness: the amended count at a concrete positive complexity, and the
bypass at complexity 0. -/
theorem c3_pattern_count_witness :
    ((0 : ℚ) < 1 ∧
      (patternsToUse (detectPatterns ([] : List String)) 1).length =
        min (detectPatterns ([] : List String)).length
          (max 1 (Int.floor (((detectPatterns ([] : List String)).length : ℚ) * 1))).toNat) ∧
    (enhanceComposition ⟨["C4"], 0, false, 0⟩ (fun _ => 0)).enhancedNotes = ["C4"] :=
  ⟨⟨by norm_num,
      (c3_pattern_count_amended ⟨[], 1, false, 0⟩ (fun _ => 0)).1 (by norm_num)⟩,
    (c3_pattern_count_amended ⟨["C4"], 0, false, 0⟩ (fun _ => 0)).2 rfl⟩

/-- C6: enhanceMelody with variation exactly 0 is the identity on the note
sequence, for every pattern list and every outcome of the random draws. -/
theorem c6_variation_zero_identity (notes : List String) (patterns : List Pattern)
    (g : ℕ → ℚ) : enhanceMelody notes patterns 0 g = notes := by
  simp [enhanceMelody]

/-- C8: the harmonies field of the enhanceComposition result is present —
and then holds the generated pair of voice sequences — exactly when the
harmony flag is true; when the flag is false it is absent. -/
theorem c8_harmonies_iff (o : AICompositionOptions) (g : ℕ → ℚ) :
    (o.harmony = true →
      (enhanceComposition o g).harmonies = some (generateHarmonies o.notes)) ∧
    (o.harmony = false → (enhanceComposition o g).harmonies = none) ∧
    (∀ hs, (enhanceComposition o g).harmonies = some hs → hs.length = 2) := by
  refine ⟨fun h => ?_, fun h => ?_, fun hs h => ?_⟩
  · show (if o.harmony then _ else none) = _
    rw [h, if_pos rfl]
  · show (if o.harmony then _ else none) = none
    rw [h, if_neg (by simp)]
  · revert h
    show (if o.harmony then some (generateHarmonies o.notes) else none) = some hs → _
    cases o.harmony with
    | false => intro h; simp at h
    | true =>
      intro h
      simp only [if_pos] at h
      cases h
      rfl

/-- C8 witness: harmonies present for a harmony-on call, absent for a
harmony-off call. -/
theorem c8_harmonies_witness :
    (enhanceComposition ⟨["C4"], 0, true, 0⟩ (fun _ => 0)).harmonies =
      some (generateHarmonies ["C4"]) ∧
    (enhanceComposition ⟨["C4"], 0, false, 0⟩ (fun _ => 0)).harmonies = none :=
  ⟨(c8_harmonies_iff ⟨["C4"], 0, true, 0⟩ (fun _ => 0)).1 rfl,
    (c8_harmonies_iff ⟨["C4"], 0, false, 0⟩ (fun _ => 0)).2.1 rfl⟩

/-- C9: every input with fewer than 10 tokens yields an empty pattern list —
the 10-token guard fires before any span of length 2 to 5 is examined. -/
theorem c9_short_sequences_empty (notes : List String) (h : notes.length < 10) :
    detectPatterns notes = [] := by
  rw [detectPatterns, if_pos h]

/-- C9 witness: an 8-token sequence full of exact repeated spans of lengths
2 to 5 still yields no patterns. -/
theorem c9_short_sequences_witness :
    (["C4", "D4", "C4", "D4", "C4", "D4", "C4", "D4"] : List String).length < 10 ∧
    detectPatterns ["C4", "D4", "C4", "D4", "C4", "D4", "C4", "D4"] = [] :=
  ⟨by decide, c9_short_sequences_empty _ (by decide)⟩

/-- C10: a token whose final character is a digit but whose pitch-class
prefix is missing from the chromatic table (indexOf gives -1) maps to
"D#" plus the unchanged octave digit in the third voice ((-1+4) mod 12 = 3)
and "F#" plus the unchanged octave digit in the fifth voice
((-1+7) mod 12 = 6). -/
theorem c10_unknown_pitch (notes : List String) (i : ℕ) (note : String) (c : Char)
    (hn : notes[i]? = some note) (hlast : sliceLast note = String.mk [c])
    (hc : c.isDigit = true)
    (hu : chromatic.findIdx? (· == sliceDropLast note) = none) :
    ∃ thirds fifths, generateHarmonies notes = [thirds, fifths] ∧
      thirds[i]? = some ("D#" ++ String.mk [c]) ∧
      fifths[i]? = some ("F#" ++ String.mk [c]) := by
  have hidx : noteIndexOf (sliceDropLast note) = -1 := by
    unfold noteIndexOf
    rw [hu]
  have hoct : octaveRender (sliceLast note) = String.mk [c] := by
    rw [hlast, octaveRender_digit c hc]
  have hthird : thirdOf note = "D#" ++ String.mk [c] := by
    show chromatic.getD ((noteIndexOf (sliceDropLast note) + 4) % 12).toNat "" ++
        octaveRender (sliceLast note) = "D#" ++ String.mk [c]
    rw [hidx, hoct]
    have h3 : (((-1 + 4 : ℤ)) % 12).toNat = 3 := by decide
    rw [h3]
    rfl
  have hfifth : fifthOf note = "F#" ++ String.mk [c] := by
    show chromatic.getD ((noteIndexOf (sliceDropLast note) + 7) % 12).toNat "" ++
        octaveRender (sliceLast note) = "F#" ++ String.mk [c]
    rw [hidx, hoct]
    have h6 : (((-1 + 7 : ℤ)) % 12).toNat = 6 := by decide
    rw [h6]
    rfl
  refine ⟨notes.map thirdOf, notes.map fifthOf, rfl, ?_, ?_⟩
  · rw [List.getElem?_map, hn]
    simp [hthird]
  · rw [List.getElem?_map, hn]
    simp [hfifth]

/-- C10 witness: the unknown pitch-class token "Z4" yields "D#4" and "F#4". -/
theorem c10_unknown_pitch_witness :
    ∃ thirds fifths, generateHarmonies ["Z4"] = [thirds, fifths] ∧
      thirds[0]? = some ("D#" ++ String.mk ['4']) ∧
      fifths[0]? = some ("F#" ++ String.mk ['4']) :=
  c10_unknown_pitch ["Z4"] 0 "Z4" '4' (by decide) (by decide) (by decide) (by decide)

/-- C5, counterexample: two low-significance patterns covering the same
position can each append a '*' marker to the same token; the final
`replace("*", "")` strips only the first one, so the returned sequence
contains a token with a residual '*'. -/
theorem c5_marker_counterexample :
    ∃ m ∈ enhanceMelody ["C4"] [⟨0, 1, 1, 0⟩, ⟨0, 1, 1, 0⟩] 1 (fun _ => 0), '*' ∈ m.data := by
  have heval : enhanceMelody ["C4"] [⟨0, 1, 1, 0⟩, ⟨0, 1, 1, 0⟩] 1 (fun _ => 0) =
      [stripStar (("C4" ++ "*") ++ "*")] := by
    norm_num [enhanceMelody, applyPattern, lowStep, sliceRange, List.range_succ,
      List.range_zero, List.foldl_cons, List.foldl_nil, List.getD_cons_zero]
  rw [heval]
  refine ⟨_, List.mem_singleton_self _, ?_⟩
  decide

end AIComposer

/-! ## C2: the Harmony Generator on well-formed inputs -/

namespace AIComposer

theorem thirdOf_wf (k : ℕ) (hk : k < 12) (c : Char) (hc : c.isDigit = true) :
    thirdOf (chromatic.getD k "" ++ String.mk [c]) =
      chromatic.getD ((k + 4) % 12) "" ++ String.mk [c] := by
  have h := harmonyNote_wf 4 k hk c hc
  have hcast : ((4 : ℕ) : ℤ) = (4 : ℤ) := by norm_num
  rw [hcast] at h
  exact h

theorem fifthOf_wf (k : ℕ) (hk : k < 12) (c : Char) (hc : c.isDigit = true) :
    fifthOf (chromatic.getD k "" ++ String.mk [c]) =
      chromatic.getD ((k + 7) % 12) "" ++ String.mk [c] := by
  have h := harmonyNote_wf 7 k hk c hc
  have hcast : ((7 : ℕ) : ℤ) = (7 : ℤ) := by norm_num
  rw [hcast] at h
  exact h

/-- C2: on any sequence of well-formed note tokens, generateHarmonies returns
exactly two sequences of the input's length; at every position the third
voice is the input pitch class shifted by +4 mod 12 and the fifth voice by
+7 mod 12, each with the octave digit unchanged; in particular
generateHarmonies(["C4"]) = [["E4"], ["G4"]]. -/
theorem c2_generateHarmonies_spec :
    (∀ notes : List String, (∀ n ∈ notes, WellFormedNote n) →
      ∃ thirds fifths, generateHarmonies notes = [thirds, fifths] ∧
        thirds.length = notes.length ∧ fifths.length = notes.length ∧
        ∀ i, i < notes.length → ∃ k, k < 12 ∧ ∃ c : Char, c.isDigit = true ∧
          notes.getD i "" = chromatic.getD k "" ++ String.mk [c] ∧
          thirds.getD i "" = chromatic.getD ((k + 4) % 12) "" ++ String.mk [c] ∧
          fifths.getD i "" = chromatic.getD ((k + 7) % 12) "" ++ String.mk [c]) ∧
    generateHarmonies ["C4"] = [["E4"], ["G4"]] := by
  constructor
  · intro notes h
    refine ⟨notes.map thirdOf, notes.map fifthOf, rfl, by simp, by simp, ?_⟩
    intro i hi
    have hget : notes[i]? = some (notes.getD i "") := by
      rw [List.getD_eq_getElem?_getD, List.getElem?_eq_getElem hi]
      rfl
    have hmem : notes.getD i "" ∈ notes := by
      have := List.getElem_mem (l := notes) (n := i) hi
      rw [List.getD_eq_getElem?_getD, List.getElem?_eq_getElem hi]
      exact this
    obtain ⟨k, hk, c, hc, hn⟩ := h _ hmem
    refine ⟨k, hk, c, hc, hn, ?_, ?_⟩
    · have h1 : (notes.map thirdOf)[i]? = some (thirdOf (notes.getD i "")) := by
        rw [List.getElem?_map, hget]
        rfl
      rw [List.getD_eq_getElem?_getD, h1, Option.getD_some, hn, thirdOf_wf k hk c hc]
    · have h1 : (notes.map fifthOf)[i]? = some (fifthOf (notes.getD i "")) := by
        rw [List.getElem?_map, hget]
        rfl
      rw [List.getD_eq_getElem?_getD, h1, Option.getD_some, hn, fifthOf_wf k hk c hc]
  · decide

/-- C2 witness: the well-formedness hypothesis and the full conclusion at the
concrete input ["C4"]. -/
theorem c2_generateHarmonies_witness :
    (∀ n ∈ (["C4"] : List String), WellFormedNote n) ∧
    (∃ thirds fifths, generateHarmonies ["C4"] = [thirds, fifths] ∧
      thirds.length = (["C4"] : List String).length ∧
      fifths.length = (["C4"] : List String).length ∧
      ∀ i, i < (["C4"] : List String).length → ∃ k, k < 12 ∧ ∃ c : Char, c.isDigit = true ∧
        (["C4"] : List String).getD i "" = chromatic.getD k "" ++ String.mk [c] ∧
        thirds.getD i "" = chromatic.getD ((k + 4) % 12) "" ++ String.mk [c] ∧
        fifths.getD i "" = chromatic.getD ((k + 7) % 12) "" ++ String.mk [c]) := by
  have hwf : ∀ n ∈ (["C4"] : List String), WellFormedNote n := by
    intro n hn
    have : n = "C4" := List.mem_singleton.mp hn
    subst this
    exact ⟨0, by norm_num, '4', by decide, by decide⟩
  exact ⟨hwf, c2_generateHarmonies_spec.1 ["C4"] hwf⟩

end AIComposer

/-! ## C4: the Melody Enhancer never shrinks the sequence -/

namespace AIComposer

theorem mediumStep_length (variation : ℚ) (g : ℕ → ℚ) (p : Pattern)
    (st : List String × ℕ) (i : ℕ) :
    ((mediumStep variation g p st i).1).length = st.1.length := by
  simp only [mediumStep]
  split
  · split
    · simp [List.length_set]
    · rfl
  · rfl

theorem lowStep_length (variation : ℚ) (g : ℕ → ℚ) (p : Pattern)
    (st : List String × ℕ) (i : ℕ) :
    ((lowStep variation g p st i).1).length = st.1.length := by
  simp only [lowStep]
  split
  · split
    · simp [List.length_set]
    · rfl
  · rfl

theorem foldl_mediumStep_length (variation : ℚ) (g : ℕ → ℚ) (p : Pattern) :
    ∀ (is : List ℕ) (st : List String × ℕ),
      ((is.foldl (mediumStep variation g p) st).1).length = st.1.length := by
  intro is
  induction is with
  | nil => intro st; rfl
  | cons a as ih =>
    intro st
    rw [List.foldl_cons, ih, mediumStep_length]

theorem foldl_lowStep_length (variation : ℚ) (g : ℕ → ℚ) (p : Pattern) :
    ∀ (is : List ℕ) (st : List String × ℕ),
      ((is.foldl (lowStep variation g p) st).1).length = st.1.length := by
  intro is
  induction is with
  | nil => intro st; rfl
  | cons a as ih =>
    intro st
    rw [List.foldl_cons, ih, lowStep_length]

theorem spliceIdx_le (len : ℕ) (start : ℤ) : spliceIdx len start ≤ len := by
  unfold spliceIdx
  split <;> omega

theorem spliceInsert_length (l : List String) (start : ℤ) (items : List String) :
    (spliceInsert l start items).length = l.length + items.length := by
  have h := spliceIdx_le l.length start
  simp only [spliceInsert, List.length_append, List.length_take, List.length_drop]
  omega

theorem applyPattern_length_ge (notes : List String) (variation : ℚ) (g : ℕ → ℚ)
    (st : List String × ℕ) (p : Pattern) :
    st.1.length ≤ ((applyPattern notes variation g st p).1).length := by
  simp only [applyPattern]
  split
  · split
    · simp only [spliceInsert_length]
      omega
    · split
      · rw [foldl_mediumStep_length]
      · rw [foldl_lowStep_length]
  · exact le_refl _

theorem applyPattern_length_eq (notes : List String) (variation : ℚ) (g : ℕ → ℚ)
    (st : List String × ℕ) (p : Pattern) (hp : p.significance ≤ 7 / 10) :
    ((applyPattern notes variation g st p).1).length = st.1.length := by
  simp only [applyPattern]
  split
  · split
    · exact absurd hp (by rename_i hgt; exact not_le.mpr hgt)
    · split
      · rw [foldl_mediumStep_length]
      · rw [foldl_lowStep_length]
  · rfl

theorem foldl_applyPattern_length_ge (notes : List String) (variation : ℚ) (g : ℕ → ℚ) :
    ∀ (ps : List Pattern) (st : List String × ℕ),
      st.1.length ≤ ((ps.foldl (applyPattern notes variation g) st).1).length := by
  intro ps
  induction ps with
  | nil => intro st; exact le_refl _
  | cons p ps ih =>
    intro st
    rw [List.foldl_cons]
    exact le_trans (applyPattern_length_ge notes variation g st p) (ih _)

theorem foldl_applyPattern_length_eq (notes : List String) (variation : ℚ) (g : ℕ → ℚ) :
    ∀ (ps : List Pattern) (st : List String × ℕ), (∀ p ∈ ps, p.significance ≤ 7 / 10) →
      ((ps.foldl (applyPattern notes variation g) st).1).length = st.1.length := by
  intro ps
  induction ps with
  | nil => intro st _; rfl
  | cons p ps ih =>
    intro st h
    rw [List.foldl_cons, ih _ (fun q hq => h q (List.mem_cons_of_mem p hq)),
      applyPattern_length_eq notes variation g st p (h p (List.mem_cons_self p ps))]

/-- C4: for every input, pattern list, variation value and outcome of the
random draws, enhanceMelody returns a sequence at least as long as the
input; when no pattern has significance above 0.7 (so the high-significance
insert branch can never fire) the length is exactly the input length — no
branch shrinks the sequence. -/
theorem c4_enhanceMelody_length (notes : List String) (patterns : List Pattern)
    (variation : ℚ) (g : ℕ → ℚ) :
    notes.length ≤ (enhanceMelody notes patterns variation g).length ∧
    ((∀ p ∈ patterns, p.significance ≤ 7 / 10) →
      (enhanceMelody notes patterns variation g).length = notes.length) := by
  unfold enhanceMelody
  split
  · exact ⟨le_refl _, fun _ => rfl⟩
  · constructor
    · rw [List.length_map]
      exact foldl_applyPattern_length_ge notes variation g patterns (notes, 0)
    · intro h
      rw [List.length_map]
      exact foldl_applyPattern_length_eq notes variation g patterns (notes, 0) h

/-- C4 witness: a concrete medium-significance run keeps the length equal to
the input length. -/
theorem c4_enhanceMelody_length_witness :
    (∀ p ∈ ([⟨0, 1, 1, 1 / 2⟩] : List Pattern), p.significance ≤ 7 / 10) ∧
    (enhanceMelody ["C4"] [⟨0, 1, 1, 1 / 2⟩] 1 (fun _ => 0)).length =
      (["C4"] : List String).length := by
  have h : ∀ p ∈ ([⟨0, 1, 1, 1 / 2⟩] : List Pattern), p.significance ≤ 7 / 10 := by
    intro p hp
    have := List.mem_singleton.mp hp
    subst this
    norm_num
  exact ⟨h, (c4_enhanceMelody_length ["C4"] [⟨0, 1, 1, 1 / 2⟩] 1 (fun _ => 0)).2 h⟩

end AIComposer

/-! ## C7: shape of the detectPatterns result -/

namespace AIComposer

theorem exactPatterns_eq (notes : List String) :
    exactPatterns notes =
      exactPatternsOfLen notes 2 ++ exactPatternsOfLen notes 3 ++
        exactPatternsOfLen notes 4 ++ exactPatternsOfLen notes 5 := rfl

theorem exactPatternsOfLen_mem (notes : List String) (L : ℕ) :
    ∀ p ∈ exactPatternsOfLen notes L, 2 ≤ p.repeats ∧ p.length = L ∧
      p.significance = min 1 (((p.repeats * p.length : ℕ) : ℚ) / 20) := by
  intro p hp
  simp only [exactPatternsOfLen, List.mem_filterMap] at hp
  obtain ⟨e, _, hcond⟩ := hp
  split at hcond
  · rename_i h2
    cases hcond
    exact ⟨h2, rfl, rfl⟩
  · cases hcond

theorem exactPatterns_mem (notes : List String) :
    ∀ p ∈ exactPatterns notes, 2 ≤ p.repeats ∧
      p.significance = min 1 (((p.repeats * p.length : ℕ) : ℚ) / 20) := by
  intro p hp
  rw [exactPatterns_eq] at hp
  rcases List.mem_append.mp hp with hp' | h5
  · rcases List.mem_append.mp hp' with hp'' | h4
    · rcases List.mem_append.mp hp'' with h2 | h3
      · exact ⟨(exactPatternsOfLen_mem notes 2 p h2).1, (exactPatternsOfLen_mem notes 2 p h2).2.2⟩
      · exact ⟨(exactPatternsOfLen_mem notes 3 p h3).1, (exactPatternsOfLen_mem notes 3 p h3).2.2⟩
    · exact ⟨(exactPatternsOfLen_mem notes 4 p h4).1, (exactPatternsOfLen_mem notes 4 p h4).2.2⟩
  · exact ⟨(exactPatternsOfLen_mem notes 5 p h5).1, (exactPatternsOfLen_mem notes 5 p h5).2.2⟩

theorem fuzzyFrom_mem (notes : List String) :
    ∀ (m i : ℕ), notes.length - i ≤ m →
      ∀ p ∈ fuzzyFrom notes i, 2 ≤ p.repeats ∧ 0 ≤ p.significance ∧ p.significance ≤ 1 := by
  intro m
  induction m with
  | zero =>
    intro i hi p hp
    rw [fuzzyFrom, dif_neg (by omega)] at hp
    cases hp
  | succ m ih =>
    intro i hi p hp
    rw [fuzzyFrom] at hp
    by_cases h : i < notes.length - 5
    · rw [dif_pos h] at hp
      dsimp only at hp
      split at hp
      · rename_i hreps
        rcases List.mem_cons.mp hp with rfl | hp'
        · refine ⟨?_, ?_, min_le_left _ _⟩
          · show 2 ≤ fuzzyCount notes i + 1
            omega
          · exact le_min (by norm_num) (by positivity)
        · exact ih (i + 3) (by omega) p hp'
      · exact ih (i + 1) (by omega) p hp
    · rw [dif_neg h] at hp
      cases hp

theorem sortBySig_sorted (l : List Pattern) :
    (sortBySig l).Pairwise (fun a b => b.significance ≤ a.significance) := by
  have htrans : ∀ a b c : Pattern,
      decide (b.significance ≤ a.significance) = true →
      decide (c.significance ≤ b.significance) = true →
      decide (c.significance ≤ a.significance) = true := by
    intro a b c hab hbc
    simp only [decide_eq_true_eq] at *
    exact le_trans hbc hab
  have htotal : ∀ a b : Pattern,
      (decide (b.significance ≤ a.significance) ||
        decide (a.significance ≤ b.significance)) = true := by
    intro a b
    simp only [Bool.or_eq_true, decide_eq_true_eq]
    exact le_total _ _
  have h := List.sorted_mergeSort htrans htotal l
  exact h.imp (fun hab => of_decide_eq_true hab)

theorem sortBySig_perm (l : List Pattern) : (sortBySig l).Perm l :=
  List.mergeSort_perm l _

theorem detectPatterns_cases (notes : List String) :
    ∀ p ∈ detectPatterns notes, p ∈ exactPatterns notes ∨ p ∈ fuzzyFrom notes 0 := by
  intro p hp
  rw [detectPatterns] at hp
  split at hp
  · cases hp
  · dsimp only at hp
    have hp2 := (sortBySig_perm _).mem_iff.mp (List.mem_of_mem_take hp)
    split at hp2
    · rcases List.mem_append.mp hp2 with h | h
      · exact Or.inl h
      · exact Or.inr h
    · exact Or.inl hp2

theorem detectPatterns_exact_cases (notes : List String) (hne : exactPatterns notes ≠ []) :
    ∀ p ∈ detectPatterns notes, p ∈ exactPatterns notes := by
  intro p hp
  rw [detectPatterns] at hp
  split at hp
  · cases hp
  · dsimp only at hp
    have hp2 := (sortBySig_perm _).mem_iff.mp (List.mem_of_mem_take hp)
    rw [if_neg (by
      intro hand
      exact hne (List.length_eq_zero.mp hand.1))] at hp2
    exact hp2

/-- C7: detectPatterns returns at most 5 patterns, sorted by non-increasing
significance; every returned pattern has at least 2 repeats and a
significance in [0, 1]; and whenever the exact-repeat scan found anything
(so the returned patterns are exact-repeat patterns, not fuzzy-fallback
ones), each returned significance equals min(1, repeats * length / 20). -/
theorem c7_detectPatterns_spec (notes : List String) :
    (detectPatterns notes).length ≤ 5 ∧
    (detectPatterns notes).Pairwise (fun a b => b.significance ≤ a.significance) ∧
    (∀ p ∈ detectPatterns notes, 2 ≤ p.repeats ∧ 0 ≤ p.significance ∧ p.significance ≤ 1) ∧
    (exactPatterns notes ≠ [] → ∀ p ∈ detectPatterns notes,
      p.significance = min 1 (((p.repeats * p.length : ℕ) : ℚ) / 20)) := by
  refine ⟨?_, ?_, ?_, ?_⟩
  · rw [detectPatterns]
    split
    · simp
    · exact List.length_take_le 5 _
  · rw [detectPatterns]
    split
    · exact List.Pairwise.nil
    · exact (sortBySig_sorted _).sublist (List.take_sublist 5 _)
  · intro p hp
    rcases detectPatterns_cases notes p hp with h | h
    · obtain ⟨hr, hs⟩ := exactPatterns_mem notes p h
      refine ⟨hr, ?_, ?_⟩
      · rw [hs]
        exact le_min (by norm_num) (by positivity)
      · rw [hs]
        exact min_le_left _ _
    · exact fuzzyFrom_mem notes notes.length 0 (by omega) p h
  · intro hne p hp
    exact (exactPatterns_mem notes p (detectPatterns_exact_cases notes hne p hp)).2

/-- C7 witness: a 10-token input with an exact repeated 2-token span; the
returned significances follow the exact-repeat formula. -/
theorem c7_detectPatterns_witness :
    exactPatterns ["A4", "B4", "A4", "B4", "C4", "D4", "E4", "F4", "G4", "A5"] ≠ [] ∧
    (∀ p ∈ detectPatterns ["A4", "B4", "A4", "B4", "C4", "D4", "E4", "F4", "G4", "A5"],
      p.significance = min 1 (((p.repeats * p.length : ℕ) : ℚ) / 20)) :=
  ⟨by decide,
    (c7_detectPatterns_spec ["A4", "B4", "A4", "B4", "C4", "D4", "E4", "F4", "G4", "A5"]).2.2.2
      (by decide)⟩

end AIComposer

/-! ## C5 (amended): marker stripping with a single pattern -/

namespace AIComposer

theorem count_removeFirstStar (l : List Char) :
    (removeFirstStar l).count '*' = l.count '*' - 1 := by
  induction l with
  | nil => rfl
  | cons c cs ih =>
    rw [removeFirstStar]
    split
    · rename_i h
      subst h
      simp [List.count_cons]
    · rename_i h
      simp [List.count_cons, h, ih]

theorem stripStar_no_star (s : String) (h : s.data.count '*' ≤ 1) :
    '*' ∉ (stripStar s).data := by
  have hc := count_removeFirstStar s.data
  apply List.count_eq_zero.mp
  show (removeFirstStar s.data).count '*' = 0
  omega

theorem getD_stars_zero (l : List String) (h : ∀ t ∈ l, t.data.count '*' = 0) (j : ℕ) :
    ((l.getD j "").data.count '*') = 0 := by
  rcases lt_or_ge j l.length with hj | hj
  · apply h
    rw [List.getD_eq_getElem?_getD, List.getElem?_eq_getElem hj]
    exact List.getElem_mem hj
  · rw [List.getD_eq_getElem?_getD, List.getElem?_eq_none hj]
    rfl

theorem mem_sliceRange (notes : List String) (a b : ℕ) :
    ∀ t ∈ sliceRange notes a b, t ∈ notes := by
  intro t ht
  exact List.mem_of_mem_drop (List.mem_of_mem_take ht)

theorem mem_spliceInsert (l : List String) (start : ℤ) (items : List String) :
    ∀ t ∈ spliceInsert l start items, t ∈ l ∨ t ∈ items := by
  intro t ht
  simp only [spliceInsert, List.mem_append] at ht
  rcases ht with (h | h) | h
  · exact Or.inl (List.mem_of_mem_take h)
  · exact Or.inr h
  · exact Or.inl (List.mem_of_mem_drop h)

theorem raiseOctave_no_star (note : String) (h : note.data.count '*' = 0) :
    (raiseOctave note).data.count '*' = 0 := by
  have hname : (sliceDropLast note).data.count '*' = 0 := by
    show (note.data.dropLast).count '*' = 0
    have hle := (List.dropLast_sublist note.data).count_le '*'
    omega
  unfold raiseOctave
  split
  · rename_i o ho
    rw [String.data_append, List.count_append, hname]
    have h7 : min (o + 1) 7 ≤ 7 := min_le_right _ _
    set m := min (o + 1) 7 with hm
    show 0 + (String.mk [digitChar m]).data.count '*' = 0
    interval_cases m <;> decide
  · rw [String.data_append, List.count_append, hname]
    decide

theorem mediumStep_no_star (variation : ℚ) (g : ℕ → ℚ) (p : Pattern)
    (st : List String × ℕ) (i : ℕ) (h : ∀ t ∈ st.1, t.data.count '*' = 0) :
    ∀ t ∈ (mediumStep variation g p st i).1, t.data.count '*' = 0 := by
  simp only [mediumStep]
  split
  · split
    · intro t ht
      rcases List.mem_or_eq_of_mem_set ht with h' | rfl
      · exact h t h'
      · exact raiseOctave_no_star _ (getD_stars_zero st.1 h _)
    · exact h
  · exact h

theorem foldl_mediumStep_no_star (variation : ℚ) (g : ℕ → ℚ) (p : Pattern) :
    ∀ (is : List ℕ) (st : List String × ℕ), (∀ t ∈ st.1, t.data.count '*' = 0) →
      ∀ t ∈ ((is.foldl (mediumStep variation g p) st).1), t.data.count '*' = 0 := by
  intro is
  induction is with
  | nil => intro st h; exact h
  | cons a as ih =>
    intro st h
    rw [List.foldl_cons]
    exact ih _ (mediumStep_no_star variation g p st a h)

theorem foldl_lowStep_stars (variation : ℚ) (g : ℕ → ℚ) (p : Pattern) :
    ∀ (m s : ℕ) (st : List String × ℕ),
      (∀ j, ((st.1.getD j "").data.count '*') ≤ 1) →
      (∀ j, p.start + s ≤ j → ((st.1.getD j "").data.count '*') = 0) →
      ∀ j, ((((List.range' s m).foldl (lowStep variation g p) st).1.getD j "").data.count '*') ≤ 1 := by
  intro m
  induction m with
  | zero => intro s st h1 _ j; exact h1 j
  | succ m ih =>
    intro s st h1 h2 j
    rw [List.range'_succ, List.foldl_cons]
    refine ih (s + 1) (lowStep variation g p st s) ?_ ?_ j
    · intro j'
      simp only [lowStep]
      split
      · split
        · rename_i hlt
          by_cases hj : j' = p.start + s
          · subst hj
            rw [List.getD_eq_getElem?_getD, List.getElem?_set_self hlt, Option.getD_some,
              String.data_append, List.count_append]
            have h0 := h2 (p.start + s) (le_refl _)
            have hs : ("*" : String).data.count '*' = 1 := by decide
            omega
          · rw [List.getD_eq_getElem?_getD,
              List.getElem?_set_ne (fun hh => hj hh.symm), ← List.getD_eq_getElem?_getD]
            exact h1 j'
        · exact h1 j'
      · exact h1 j'
    · intro j' hj'
      simp only [lowStep]
      split
      · split
        · rw [List.getD_eq_getElem?_getD,
            List.getElem?_set_ne (by omega : p.start + s ≠ j'), ← List.getD_eq_getElem?_getD]
          exact h2 j' (by omega)
        · exact h2 j' (by omega)
      · exact h2 j' (by omega)

theorem applyPattern_single_stars (notes : List String) (variation : ℚ) (g : ℕ → ℚ)
    (p : Pattern) (h : ∀ t ∈ notes, t.data.count '*' = 0) :
    ∀ j, (((applyPattern notes variation g (notes, 0) p).1.getD j "").data.count '*') ≤ 1 := by
  intro j
  simp only [applyPattern]
  split
  · split
    · -- high-significance insert: every token comes from notes or its slice
      refine le_trans (le_of_eq (getD_stars_zero _ ?_ j)) (Nat.zero_le 1)
      intro t ht
      rcases mem_spliceInsert _ _ _ t ht with h' | h'
      · exact h t h'
      · exact h t (mem_sliceRange notes p.start p.length t h')
    · split
      · -- medium: octave raises keep tokens star-free
        refine le_trans (le_of_eq (getD_stars_zero _ ?_ j)) (Nat.zero_le 1)
        exact foldl_mediumStep_no_star variation g p _ _ h
      · -- low: each position is marked at most once
        rw [List.range_eq_range']
        refine foldl_lowStep_stars variation g p p.length 0 _ ?_ ?_ j
        · intro j'
          exact le_trans (le_of_eq (getD_stars_zero notes h j')) (Nat.zero_le 1)
        · intro j' _
          exact getD_stars_zero notes h j'
  · exact le_trans (le_of_eq (getD_stars_zero notes h j)) (Nat.zero_le 1)

/-- C5, amended: the final pass strips at most one '*' marker per token, so
the low-significance branch is observably a no-op on the returned notes
whenever no token is marked twice — in particular, for a marker-free input
and a single pattern (the low branch then marks each position at most once),
no returned token contains '*'. With several low-significance patterns
covering the same position, a returned token can retain a residual marker. -/
theorem c5_marker_amended (notes : List String) (p : Pattern) (variation : ℚ)
    (g : ℕ → ℚ) (h : ∀ n ∈ notes, '*' ∉ n.data) :
    ∀ m ∈ enhanceMelody notes [p] variation g, '*' ∉ m.data := by
  have h0 : ∀ t ∈ notes, t.data.count '*' = 0 := fun t ht =>
    List.count_eq_zero.mpr (h t ht)
  intro m hm
  unfold enhanceMelody at hm
  split at hm
  · exact h m hm
  · simp only [List.foldl_cons, List.foldl_nil] at hm
    rw [List.mem_map] at hm
    obtain ⟨t, ht, rfl⟩ := hm
    obtain ⟨j, hj⟩ := List.mem_iff_getElem?.mp ht
    apply stripStar_no_star
    have hst := applyPattern_single_stars notes variation g p h0 j
    rw [List.getD_eq_getElem?_getD, hj, Option.getD_some] at hst
    exact hst

/-- C5 witness: a star-free input with one low-significance pattern comes
back star-free. -/
theorem c5_marker_witness :
    (∀ n ∈ (["C4", "D4"] : List String), '*' ∉ n.data) ∧
    (∀ m ∈ enhanceMelody ["C4", "D4"] [⟨0, 2, 1, 0⟩] 1 (fun _ => 0), '*' ∉ m.data) :=
  ⟨by decide, c5_marker_amended ["C4", "D4"] ⟨0, 2, 1, 0⟩ 1 (fun _ => 0) (by decide)⟩

end AIComposer
